import Mathlib

/-!
Verification of the bit-packing, XOR-keying, compression round-trip, BB84
sifting and constructor-validation logic of the quantum-teleportation
repository.

Modelling conventions:
* A Python `str` is modelled as `List Char` (a sequence of Unicode scalar
  values; Lean's `Char` carries exactly the validity invariant of an
  encodable Python character).
* A Python `bytes` / `bytearray` is modelled as `List Nat` with entries
  below 256.
* Functions that can raise exceptions return `Option`.
* The external Brotli library is modelled abstractly as a pair of functions
  together with its documented round-trip property (`BrotliModel.Sound`).
-/

namespace QT

/-- The binary digits of `n`, most significant first, computed with explicit
fuel (`fuel ≥ n` suffices); this is Python's `format(n, "b")` loop. -/
def binDigits : Nat → Nat → List Char
  | 0, _ => []
  | fuel + 1, n =>
    if n = 0 then []
    else binDigits fuel (n / 2) ++ [if n % 2 = 1 then '1' else '0']

/-- The binary representation of `n` (Python `format(n, "b")`): `"0"` for 0,
otherwise the digits of `n` with no leading zeros. -/
def natToBin (n : Nat) : List Char :=
  if n = 0 then ['0'] else binDigits n n

/-- Python `format(n, "08b")`: the binary representation of `n`, left-padded
with `'0'` to a minimum width of 8.  For `n ≥ 256` the result is longer
than 8 characters. -/
def format08b (n : Nat) : List Char :=
  let s := natToBin n
  List.replicate (8 - s.length) '0' ++ s

/-- UTF-8 encoding of a single Unicode scalar value, as performed per
character by Python's `str.encode("utf8")` / `bytearray(text, "utf8")`. -/
def utf8EncodeChar (c : Char) : List Nat :=
  let n := c.toNat
  if n < 0x80 then [n]
  else if n < 0x800 then [0xC0 + n / 64, 0x80 + n % 64]
  else if n < 0x10000 then [0xE0 + n / 4096, 0x80 + n / 64 % 64, 0x80 + n % 64]
  else [0xF0 + n / 262144, 0x80 + n / 4096 % 64, 0x80 + n / 64 % 64, 0x80 + n % 64]

/-- Python `text.encode("utf8")` / `bytearray(text, "utf8")`. -/
def strToBytes (t : List Char) : List Nat :=
  (t.map utf8EncodeChar).flatten

/-- `convert_text_to_binary` from src/quantum_teleportation/utils.py:
`"".join(format(byte, "08b") for byte in bytearray(text, "utf8"))`. -/
def convert_text_to_binary (text : List Char) : List Char :=
  ((strToBytes text).map format08b).flatten

/-- `convert_text_to_binary` from src/quantum_communication/utils.py (the
same code appears as a method in src/communication.py and src/main.py):
`"".join(format(ord(char), "08b") for char in text)`. -/
def convert_text_to_binary_ord (text : List Char) : List Char :=
  (text.map (fun c => format08b c.toNat)).flatten

/-- `bit_flipper` from src/quantum_teleportation/utils.py:
`"".join(["1" if x == "0" else "0" for x in bits])`. -/
def bit_flipper (bits : List Char) : List Char :=
  bits.map (fun x => if x = '0' then '1' else '0')

/-- `xor_encode` from src/quantum_teleportation/utils.py: the loop
`for bit1, bit2 in zip(binary, key)` appending `'1'` when the characters
differ and `'0'` when they agree. -/
def xor_encode (binary key : List Char) : List Char :=
  (binary.zip key).map (fun p => if p.1 ≠ p.2 then '1' else '0')

/-- `xor_decode` from src/quantum_teleportation/utils.py: identical loop to
`xor_encode`, over `zip(encoded_binary, key)`. -/
def xor_decode (encoded_binary key : List Char) : List Char :=
  (encoded_binary.zip key).map (fun p => if p.1 ≠ p.2 then '1' else '0')

/-- The `for i in range(0, len(merged_binary), 8)` slicing loop of
`handle_flipped_results`, with explicit fuel (`fuel ≥ l.length` suffices). -/
def chunkLoop : Nat → List Char → List (List Char)
  | 0, _ => []
  | fuel + 1, l =>
    if l.isEmpty then [] else l.take 8 :: chunkLoop fuel (l.drop 8)

/-- `handle_flipped_results` from src/quantum_teleportation/utils.py: joins
the per-circuit result strings and regroups the merged binary string into
8-character chunks.  The `logs` argument only controls printing in the
source and does not affect the returned value. -/
def handle_flipped_results (flipped_results : List (List Char)) (logs : Bool) : List (List Char) :=
  let merged := flipped_results.flatten
  let r := chunkLoop merged.length merged
  if logs then r else r

/-- The value of a binary digit character, `none` for any other character. -/
def binDigitVal (c : Char) : Option Nat :=
  if c = '0' then some 0 else if c = '1' then some 1 else none

/-- Accumulating loop of Python `int(s, 2)`. -/
def binGo : Nat → List Char → Option Nat
  | acc, [] => some acc
  | acc, c :: cs =>
    match binDigitVal c with
    | some d => binGo (acc * 2 + d) cs
    | none => none

/-- Python `int(s, 2)` restricted to plain digit strings: fails on the empty
string or on a character other than `'0'`/`'1'`. -/
def binToNat? (s : List Char) : Option Nat :=
  if s.isEmpty then none else binGo 0 s

/-- Whether a byte is a UTF-8 continuation byte `0x80..0xBF`. -/
def contByte (b : Nat) : Bool :=
  decide (0x80 ≤ b) && decide (b < 0xC0)

/-- One step of strict UTF-8 decoding: given the leading byte `b` and the
remaining bytes `bs`, decode one scalar value and return it with the bytes
left over.  Overlong encodings, surrogates, values above U+10FFFF and
ill-formed sequences are rejected, exactly as by Python's strict
`bytes.decode("utf-8")`. -/
def utf8Step (b : Nat) (bs : List Nat) : Option (Char × List Nat) :=
  if b < 0x80 then some (Char.ofNat b, bs)
  else if b < 0xC2 then none
  else if b < 0xE0 then
    bs.head?.bind fun b1 =>
      if contByte b1 then
        some (Char.ofNat ((b - 0xC0) * 64 + (b1 - 0x80)), bs.tail)
      else none
  else if b < 0xF0 then
    bs.head?.bind fun b1 =>
      bs.tail.head?.bind fun b2 =>
        if (if b = 0xE0 then decide (0xA0 ≤ b1) && decide (b1 < 0xC0)
            else if b = 0xED then decide (0x80 ≤ b1) && decide (b1 < 0xA0)
            else contByte b1) && contByte b2 then
          some (Char.ofNat ((b - 0xE0) * 4096 + (b1 - 0x80) * 64 + (b2 - 0x80)),
            bs.tail.tail)
        else none
  else if b < 0xF5 then
    bs.head?.bind fun b1 =>
      bs.tail.head?.bind fun b2 =>
        bs.tail.tail.head?.bind fun b3 =>
          if (if b = 0xF0 then decide (0x90 ≤ b1) && decide (b1 < 0xC0)
              else if b = 0xF4 then decide (0x80 ≤ b1) && decide (b1 < 0x90)
              else contByte b1) && contByte b2 && contByte b3 then
            some (Char.ofNat ((b - 0xF0) * 262144 + (b1 - 0x80) * 4096 +
              (b2 - 0x80) * 64 + (b3 - 0x80)), bs.tail.tail.tail)
          else none
  else none

/-- Iterated UTF-8 decoding with explicit fuel (`fuel ≥ bs.length` suffices,
since every step consumes at least the leading byte). -/
def utf8DecodeLoop : Nat → List Nat → Option (List Char)
  | 0, bs => if bs.isEmpty then some [] else none
  | _ + 1, [] => some []
  | fuel + 1, b :: rest =>
    (utf8Step b rest).bind fun p => (utf8DecodeLoop fuel p.2).map fun t => p.1 :: t

/-- Strict UTF-8 decoding of a byte string (Python `bytes.decode("utf-8")`);
a raised `UnicodeDecodeError` is modelled as `none`. -/
def utf8Decode (bs : List Nat) : Option (List Char) :=
  utf8DecodeLoop bs.length bs

/-- The generator expression `int(binary, 2) for binary in binary_list`,
collected left to right into a byte list, a raised exception as `none`. -/
def parseBinList : List (List Char) → Option (List Nat)
  | [] => some []
  | s :: rest => (binToNat? s).bind fun b => (parseBinList rest).map fun bs => b :: bs

/-- `convert_binary_to_text` from src/quantum_teleportation/utils.py:
`bytearray(int(binary, 2) for binary in binary_list).decode("utf-8")`, the
raised exception on failure modelled as `none`. -/
def convert_binary_to_text (binary_list : List (List Char)) : Option (List Char) :=
  (parseBinList binary_list).bind utf8Decode

/-- A string consisting only of the characters `'0'` and `'1'`. -/
def IsBits (s : List Char) : Prop :=
  ∀ c ∈ s, c = '0' ∨ c = '1'

instance (s : List Char) : Decidable (IsBits s) :=
  inferInstanceAs (Decidable (∀ c ∈ s, c = '0' ∨ c = '1'))

/-- Quantum gates appearing in the repository's circuit constructions. -/
inductive Gate
  | h : Nat → Gate
  | x : Nat → Gate
  | cx : Nat → Nat → Gate
  | cz : Nat → Nat → Gate
  | barrier : Gate
  | measure : Nat → Nat → Gate
deriving DecidableEq, Repr

/-- The per-bit BB84 circuit built by `create_circuits` in
src/quantum_teleportation/quantum_data_teleporter.py: Alice prepares the
qubit (`h(0)` in the X basis, `x(0)` for bit 1), a barrier marks the
transmission, Bob measures (after `h(0)` when his basis is X). -/
def bb84Circuit (aliceBasis bit bobBasis : Char) : List Gate :=
  (if aliceBasis = 'X' then [Gate.h 0] else []) ++
  (if bit = '1' then [Gate.x 0] else []) ++
  [Gate.barrier] ++
  (if bobBasis = 'X' then [Gate.h 0] else []) ++
  [Gate.measure 0 0]

/-- `create_circuits` of src/quantum_teleportation/quantum_data_teleporter.py:
one BB84 circuit per bit of the binary text (`for i, bit in
enumerate(self.binary_text)`), using Alice's and Bob's random bases. -/
def create_circuits (binaryText aliceBases bobBases : List Char) : List (List Gate) :=
  (List.range binaryText.length).map fun i =>
    bb84Circuit (aliceBases.getD i 'Z') (binaryText.getD i '0') (bobBases.getD i 'Z')

/-- The fixed 3-qubit teleportation circuit template built per bit by
`create_circuits` in src/quantum_communication/quantum_data_teleporter.py
(and identically in src/main.py). -/
def teleportCircuit (bit : Char) : List Gate :=
  [Gate.x (if bit = '1' then 1 else 0), Gate.barrier, Gate.h 1, Gate.cx 1 2,
   Gate.barrier, Gate.cx 0 1, Gate.h 0, Gate.barrier, Gate.measure 0 0,
   Gate.measure 1 1, Gate.cx 1 2, Gate.cz 0 2, Gate.measure 2 2]

/-- `create_circuits` of src/quantum_communication/quantum_data_teleporter.py:
one fixed-template circuit per bit of the binary text. -/
def create_circuits_qcomm (binaryText : List Char) : List (List Gate) :=
  binaryText.map teleportCircuit

/-- The key-sifting loop of `run_simulation` in
src/quantum_teleportation/quantum_data_teleporter.py: for each index with
matching bases, append `int(self.binary_text[i])` to Alice's key and Bob's
decoded measurement outcome to Bob's key, and return the two sifted keys.
`bobResults` stands for the per-circuit decoded measurement outcomes
(`int(max(count, key=count.get))`), which come from the external simulator. -/
def run_simulation (binaryText aliceBases bobBases : List Char) (bobResults : List Nat) :
    List Nat × List Nat :=
  (List.range binaryText.length).foldl
    (fun acc i =>
      if aliceBases.getD i 'Z' = bobBases.getD i 'Z' then
        (acc.1 ++ [(binaryText.getD i '0').toNat - 48], acc.2 ++ [bobResults.getD i 0])
      else acc)
    ([], [])

/-- The sifting loop of `run_bb84_protocol` in
src/quantum_teleportation/bb84_utils.py: indices with matching bases keep
`str(alice_bits[i])` and the corresponding character of Bob's measured key. -/
def run_bb84_sift (numQubits : Nat) (aliceBits aliceBases bobBases : List Nat)
    (measuredKey : List Char) : List Char × List Char :=
  (List.range numQubits).foldl
    (fun acc i =>
      if aliceBases.getD i 0 = bobBases.getD i 0 then
        (acc.1 ++ [Nat.digitChar (aliceBits.getD i 0)], acc.2 ++ [measuredKey.getD i ' '])
      else acc)
    ([], [])

/-! ### Base64 and the abstract Brotli model -/

/-- The standard base64 alphabet, index to character. -/
def sixBitChar (n : Nat) : Char :=
  if n < 26 then Char.ofNat (65 + n)
  else if n < 52 then Char.ofNat (97 + (n - 26))
  else if n < 62 then Char.ofNat (48 + (n - 52))
  else if n = 62 then '+' else '/'

/-- The standard base64 alphabet, character to index. -/
def charSixBit (c : Char) : Option Nat :=
  if 'A' ≤ c ∧ c ≤ 'Z' then some (c.toNat - 65)
  else if 'a' ≤ c ∧ c ≤ 'z' then some (c.toNat - 97 + 26)
  else if '0' ≤ c ∧ c ≤ '9' then some (c.toNat - 48 + 52)
  else if c = '+' then some 62
  else if c = '/' then some 63
  else none

/-- Whether a character belongs to the base64 alphabet. -/
def isB64Char (c : Char) : Bool :=
  (charSixBit c).isSome

/-- Python `base64.b64encode`: bytes to base64 characters with `=` padding. -/
def b64encode : List Nat → List Char
  | [] => []
  | [b1] => [sixBitChar (b1 / 4), sixBitChar (b1 % 4 * 16), '=', '=']
  | [b1, b2] => [sixBitChar (b1 / 4), sixBitChar (b1 % 4 * 16 + b2 / 16),
      sixBitChar (b2 % 16 * 4), '=']
  | b1 :: b2 :: b3 :: rest =>
      sixBitChar (b1 / 4) :: sixBitChar (b1 % 4 * 16 + b2 / 16) ::
      sixBitChar (b2 % 16 * 4 + b3 / 64) :: sixBitChar (b3 % 64) :: b64encode rest

/-- Group-wise base64 decoding: groups of four characters, `=` padding only
at the end; any other shape (as in Python's `binascii`) raises, here `none`. -/
def b64decodeGroups : List Char → Option (List Nat)
  | [] => some []
  | c1 :: c2 :: c3 :: c4 :: rest =>
    if c3 = '=' ∧ c4 = '=' ∧ rest = [] then
      (charSixBit c1).bind fun n1 => (charSixBit c2).map fun n2 => [n1 * 4 + n2 / 16]
    else if c4 = '=' ∧ rest = [] then
      (charSixBit c1).bind fun n1 => (charSixBit c2).bind fun n2 =>
        (charSixBit c3).map fun n3 => [n1 * 4 + n2 / 16, n2 % 16 * 16 + n3 / 4]
    else
      (charSixBit c1).bind fun n1 => (charSixBit c2).bind fun n2 =>
        (charSixBit c3).bind fun n3 => (charSixBit c4).bind fun n4 =>
          (b64decodeGroups rest).map fun bs =>
            (n1 * 4 + n2 / 16) :: (n2 % 16 * 16 + n3 / 4) :: (n3 % 4 * 64 + n4) :: bs
  | _ => none

/-- Python `base64.b64decode` with the default `validate=False`: characters
outside the alphabet are discarded before grouping; a raised
`binascii.Error` is modelled as `none`. -/
def b64decode (s : List Char) : Option (List Nat) :=
  b64decodeGroups (s.filter fun c => isB64Char c || c = '=')

/-- The external Brotli library, abstractly: a compressor and a partial
decompressor on byte strings. -/
structure BrotliModel where
  compress : List Nat → List Nat
  decompress : List Nat → Option (List Nat)

/-- The documented behaviour of Brotli that the repository relies on:
decompression inverts compression, and compression produces bytes. -/
def BrotliModel.Sound (m : BrotliModel) : Prop :=
  ∀ bs : List Nat, (∀ b ∈ bs, b < 256) →
    m.decompress (m.compress bs) = some bs ∧ ∀ b ∈ m.compress bs, b < 256

/-- A concrete sound Brotli instance agreeing with the real library on the
empty input: real Brotli compresses `b""` to the single byte `0x3B` (`b";"`)
and decompresses `b";"` back to `b""`. -/
def brotliDemo : BrotliModel where
  compress := fun bs => 0x3B :: bs
  decompress := fun bs =>
    match bs with
    | 0x3B :: rest => some rest
    | _ => none

/-! ### Compression helpers (src/quantum_teleportation/compression_utils.py) -/

/-- `adaptive_compression`: Brotli-compress and base64-encode when the text
is longer than 128 characters, otherwise return the text unchanged (no
marker distinguishes the two cases). -/
def adaptive_compression (m : BrotliModel) (text : List Char) : List Char :=
  if 128 < text.length then b64encode (m.compress (strToBytes text))
  else text

/-- `brotli_compression`: always Brotli-compress and base64-encode (the
printed compression percentage does not affect the returned value). -/
def brotli_compression (m : BrotliModel) (data : List Char) : List Char :=
  b64encode (m.compress (strToBytes data))

/-- `brotli_decompression`: base64-decode, Brotli-decompress, UTF-8 decode;
all failures raise (here `none`). -/
def brotli_decompression (m : BrotliModel) (compressed : List Char) : Option (List Char) :=
  (b64decode compressed).bind fun bs => (m.decompress bs).bind utf8Decode

/-- `adaptive_decompression`: try base64 + Brotli; on `binascii.Error` or
`brotli.error` return the data unchanged.  A `UnicodeDecodeError` from the
final `.decode()` is NOT caught and propagates (`none`). -/
def adaptive_decompression (m : BrotliModel) (data : List Char) : Option (List Char) :=
  match b64decode data with
  | none => some data
  | some bs =>
    match m.decompress bs with
    | none => some data
    | some out => utf8Decode out

/-- `decompress_data`: dispatch on the algorithm name; `"brotli"`,
`"adaptive"`, a falsy value (pass through), otherwise `ValueError`
(modelled as `none`). -/
def decompress_data (m : BrotliModel) (data : List Char) (algorithm : Option (List Char)) :
    Option (List Char) :=
  if algorithm = some "brotli".toList then brotli_decompression m data
  else if algorithm = some "adaptive".toList then adaptive_decompression m data
  else if algorithm = none ∨ algorithm = some [] then some data
  else none

/-- The decoding tail of `run_protocol` in src/quantum_teleportation/bb84.py:
join the per-bit measured results, regroup into 8-bit chunks, convert to
text, decompress, and return the decoded text paired with
`decoded_text == self.data`.  `flippedResults` stands for the per-bit
simulator outcomes (`max(result.get_counts(), key=...)`). -/
def run_protocol (m : BrotliModel) (data : List Char) (compression : Option (List Char))
    (flippedResults : List (List Char)) : Option (List Char × Bool) :=
  let decodedBinary := flippedResults.flatten
  (convert_binary_to_text (chunkLoop decodedBinary.length decodedBinary)).bind fun txt =>
    (decompress_data m txt compression).map fun decodedText =>
      (decodedText, decodedText == data)

/-! ### Constructor validation -/

/-- Python truthiness of an optional string: `None` and `""` are falsy. -/
def pyFalsy : Option (List Char) → Bool
  | none => true
  | some s => s.isEmpty

/-- The two `ValueError`s raised by `QuantumDataTeleporter.__init__`. -/
inductive InitError
  | missingInput
  | invalidCompression
deriving DecidableEq, Repr

/-- The compression mode selected by `QuantumDataTeleporter.__init__`. -/
inductive CompressionChoice
  | adaptive
  | brotli
  | uncompressed
deriving DecidableEq, Repr

/-- The argument validation performed by `QuantumDataTeleporter.__init__` in
src/quantum_teleportation/quantum_data_teleporter.py: raise `ValueError`
when `file_path`, `text_to_send` and `image_path` are all falsy, then
dispatch on `compression` (`"adaptive"`, `"brotli"`, falsy, else
`ValueError`). -/
def qdt_init (file_path text_to_send image_path compression : Option (List Char)) :
    Except InitError CompressionChoice :=
  if pyFalsy file_path ∧ pyFalsy text_to_send ∧ pyFalsy image_path then
    Except.error InitError.missingInput
  else if compression = some "adaptive".toList then Except.ok CompressionChoice.adaptive
  else if compression = some "brotli".toList then Except.ok CompressionChoice.brotli
  else if pyFalsy compression then Except.ok CompressionChoice.uncompressed
  else Except.error InitError.invalidCompression

/-- The argument validation of `QuantumDataTeleporter.__init__` in
src/quantum_communication/quantum_data_teleporter.py (no image path, no
compression argument). -/
def qdt_init_qcomm (file_path text_to_send : Option (List Char)) : Except InitError Unit :=
  if pyFalsy file_path ∧ pyFalsy text_to_send then Except.error InitError.missingInput
  else Except.ok ()

/-! ### Facts about `binDigits`, `natToBin`, `format08b`, `binToNat?` -/

theorem binDigits_bits (fuel n : Nat) : IsBits (binDigits fuel n) := by
  induction fuel generalizing n with
  | zero => intro c hc; simp [binDigits] at hc
  | succ fuel ih =>
    intro c hc
    simp only [binDigits] at hc
    split at hc
    · simp at hc
    · rcases List.mem_append.1 hc with h | h
      · exact ih _ c h
      · simp at h; subst h; split <;> simp

theorem binDigits_length (fuel n k : Nat) (hfuel : n ≤ fuel) (h : n < 2 ^ k) :
    (binDigits fuel n).length ≤ k := by
  induction fuel generalizing n k with
  | zero => simp [binDigits]
  | succ fuel ih =>
    simp only [binDigits]
    split
    · simp
    · rename_i hn
      have hk : 1 ≤ k := by
        rcases Nat.eq_zero_or_pos k with rfl | h1
        · omega
        · exact h1
      have hsub : 2 ^ k = 2 ^ (k - 1) * 2 := by
        rw [← pow_succ]
        congr 1
        omega
      have h2 : n / 2 < 2 ^ (k - 1) := Nat.div_lt_of_lt_mul (by omega)
      have h3 : n / 2 ≤ fuel := by omega
      have := ih (n / 2) (k - 1) h3 h2
      simp only [List.length_append, List.length_cons, List.length_nil]
      omega

theorem binDigits_ne_nil (fuel n : Nat) (hn : 0 < n) (hfuel : 0 < fuel) :
    binDigits fuel n ≠ [] := by
  cases fuel with
  | zero => omega
  | succ fuel =>
    simp only [binDigits]
    split
    · omega
    · simp

theorem natToBin_bits (n : Nat) : IsBits (natToBin n) := by
  unfold natToBin
  split
  · intro c hc; simp at hc; subst hc; left; rfl
  · exact binDigits_bits n n

theorem natToBin_length_le (n k : Nat) (hk : 0 < k) (h : n < 2 ^ k) :
    (natToBin n).length ≤ k := by
  unfold natToBin
  split
  · simpa using hk
  · exact binDigits_length n n k le_rfl h

theorem natToBin_ne_nil (n : Nat) : natToBin n ≠ [] := by
  unfold natToBin
  split
  · simp
  · exact binDigits_ne_nil n n (by omega) (by omega)

theorem format08b_length (n : Nat) (h : n < 256) : (format08b n).length = 8 := by
  have hle : (natToBin n).length ≤ 8 := natToBin_length_le n 8 (by omega) (by norm_num; omega)
  simp only [format08b, List.length_append, List.length_replicate]
  omega

theorem format08b_bits (n : Nat) : IsBits (format08b n) := by
  intro c hc
  simp only [format08b] at hc
  rcases List.mem_append.1 hc with h | h
  · left; exact List.eq_of_mem_replicate h
  · exact natToBin_bits n c h

theorem binGo_append (acc : Nat) (l₁ l₂ : List Char) :
    binGo acc (l₁ ++ l₂) = (binGo acc l₁).bind (fun a => binGo a l₂) := by
  induction l₁ generalizing acc with
  | nil => simp [binGo]
  | cons c cs ih =>
    simp only [List.cons_append, binGo]
    cases binDigitVal c with
    | none => simp
    | some d => simp [ih]

theorem binGo_binDigits (fuel n acc : Nat) (hfuel : n ≤ fuel) :
    binGo acc (binDigits fuel n) = some (acc * 2 ^ (binDigits fuel n).length + n) := by
  induction fuel generalizing n acc with
  | zero =>
    have : n = 0 := by omega
    subst this
    simp [binDigits, binGo]
  | succ fuel ih =>
    simp only [binDigits]
    split
    · rename_i hn; subst hn; simp [binGo]
    · rename_i hn
      rw [binGo_append]
      have h3 : n / 2 ≤ fuel := by omega
      rw [ih (n / 2) acc h3]
      have hd : binDigitVal (if n % 2 = 1 then '1' else '0') = some (n % 2) := by
        split <;> simp [binDigitVal] <;> omega
      simp only [Option.some_bind, binGo, hd, List.length_append, List.length_cons,
        List.length_nil]
      congr 1
      have e : (binDigits fuel (n / 2)).length + (0 + 1) =
          (binDigits fuel (n / 2)).length + 1 := by omega
      rw [e, pow_succ, ← mul_assoc]
      generalize acc * 2 ^ (binDigits fuel (n / 2)).length = B
      omega

theorem binGo_natToBin (n : Nat) : binGo 0 (natToBin n) = some n := by
  unfold natToBin
  split
  · rename_i h; subst h; simp [binGo, binDigitVal]
  · rw [binGo_binDigits n n 0 le_rfl]; simp

theorem binGo_replicate_zero (k : Nat) :
    binGo 0 (List.replicate k '0') = some 0 := by
  induction k with
  | zero => simp [binGo]
  | succ k ih => simpa [List.replicate, binGo, binDigitVal] using ih

theorem binToNat?_format08b (n : Nat) : binToNat? (format08b n) = some n := by
  have hne : format08b n ≠ [] := by
    simp only [format08b]
    intro h
    have h2 := congrArg List.length h
    simp only [List.length_append, List.length_replicate, List.length_nil] at h2
    have h3 : (natToBin n).length = 0 := by omega
    exact natToBin_ne_nil n (List.length_eq_zero.1 h3)
  unfold binToNat?
  rw [if_neg (by simpa [List.isEmpty_iff] using hne)]
  simp only [format08b]
  rw [binGo_append, binGo_replicate_zero]
  simpa using binGo_natToBin n

/-! ### Lengths of flattened serializations -/

theorem flatten_map_length_eq {α : Type} (l : List α) (f : α → List Char) (w : Nat)
    (h : ∀ x ∈ l, (f x).length = w) :
    ((l.map f).flatten).length = w * l.length := by
  induction l with
  | nil => simp
  | cons x xs ih =>
    simp only [List.map_cons, List.flatten_cons, List.length_append, List.length_cons]
    rw [h x (by simp), ih (fun y hy => h y (by simp [hy]))]
    ring

theorem flatten_map_bits {α : Type} (l : List α) (f : α → List Char)
    (h : ∀ x ∈ l, IsBits (f x)) : IsBits ((l.map f).flatten) := by
  intro c hc
  rw [List.mem_flatten] at hc
  obtain ⟨s, hs, hcs⟩ := hc
  rw [List.mem_map] at hs
  obtain ⟨x, hx, rfl⟩ := hs
  exact h x hx c hcs

/-! ### UTF-8 round trip -/

theorem char_valid_nat (c : Char) :
    c.toNat < 0xD800 ∨ (0xDFFF < c.toNat ∧ c.toNat < 0x110000) := by
  rcases c.valid with h | ⟨h1, h2⟩
  · left; exact h
  · right; exact ⟨h1, h2⟩

theorem char_toNat_lt (c : Char) : c.toNat < 0x110000 := by
  rcases char_valid_nat c with h | ⟨-, h⟩ <;> omega

theorem utf8EncodeChar_lt_256 (c : Char) : ∀ b ∈ utf8EncodeChar c, b < 256 := by
  have hlt := char_toNat_lt c
  intro b hb
  simp only [utf8EncodeChar] at hb
  split at hb
  · simp at hb; omega
  · split at hb
    · simp at hb; rcases hb with rfl | rfl <;> omega
    · split at hb
      · simp at hb; rcases hb with rfl | rfl | rfl <;> omega
      · simp at hb; rcases hb with rfl | rfl | rfl | rfl <;> omega

theorem utf8DecodeLoop_nil (fuel : Nat) : utf8DecodeLoop fuel [] = some [] := by
  cases fuel
  · rfl
  · rfl

theorem utf8DecodeLoop_cons (fuel b : Nat) (rest : List Nat) :
    utf8DecodeLoop (fuel + 1) (b :: rest) =
      (utf8Step b rest).bind fun p => (utf8DecodeLoop fuel p.2).map fun t => p.1 :: t := rfl

theorem utf8Step_length (b : Nat) (bs : List Nat) (c : Char) (rest : List Nat)
    (h : utf8Step b bs = some (c, rest)) : rest.length ≤ bs.length := by
  unfold utf8Step at h
  by_cases h1 : b < 0x80
  · rw [if_pos h1] at h
    simp only [Option.some.injEq, Prod.mk.injEq] at h
    rw [← h.2]
  · rw [if_neg h1] at h
    by_cases h2 : b < 0xC2
    · rw [if_pos h2] at h
      simp at h
    · rw [if_neg h2] at h
      by_cases h3 : b < 0xE0
      · rw [if_pos h3] at h
        rcases bs with _ | ⟨b1, bs1⟩
        · simp at h
        · simp only [List.head?_cons, Option.some_bind, List.tail_cons] at h
          split_ifs at h <;>
            first
              | (simp only [Option.some.injEq, Prod.mk.injEq] at h
                 rw [← h.2]
                 simp only [List.length_cons]
                 omega)
              | simp at h
      · rw [if_neg h3] at h
        by_cases h4 : b < 0xF0
        · rw [if_pos h4] at h
          rcases bs with _ | ⟨b1, _ | ⟨b2, bs2⟩⟩
          · simp at h
          · simp at h
          · simp only [List.head?_cons, Option.some_bind, List.tail_cons] at h
            split_ifs at h <;>
              first
                | (simp only [Option.some.injEq, Prod.mk.injEq] at h
                   rw [← h.2]
                   simp only [List.length_cons]
                   omega)
                | simp at h
        · rw [if_neg h4] at h
          by_cases h5 : b < 0xF5
          · rw [if_pos h5] at h
            rcases bs with _ | ⟨b1, _ | ⟨b2, _ | ⟨b3, bs3⟩⟩⟩
            · simp at h
            · simp at h
            · simp at h
            · simp only [List.head?_cons, Option.some_bind, List.tail_cons] at h
              split_ifs at h <;>
                first
                  | (simp only [Option.some.injEq, Prod.mk.injEq] at h
                     rw [← h.2]
                     simp only [List.length_cons]
                     omega)
                  | simp at h
          · rw [if_neg h5] at h
            simp at h

theorem utf8DecodeLoop_congr (f1 : Nat) : ∀ (f2 : Nat) (bs : List Nat), bs.length ≤ f1 →
    bs.length ≤ f2 → utf8DecodeLoop f1 bs = utf8DecodeLoop f2 bs := by
  induction f1 with
  | zero =>
    intro f2 bs h1 h2
    have hnil : bs = [] := List.length_eq_zero.1 (by omega)
    subst hnil
    rw [utf8DecodeLoop_nil, utf8DecodeLoop_nil]
  | succ f1 ih =>
    intro f2 bs h1 h2
    rcases bs with _ | ⟨b, rest⟩
    · rw [utf8DecodeLoop_nil, utf8DecodeLoop_nil]
    · rcases f2 with _ | f2
      · simp at h2
      · rw [utf8DecodeLoop_cons, utf8DecodeLoop_cons]
        rcases hstep : utf8Step b rest with _ | ⟨cc, rest2⟩
        · simp
        · simp only [Option.some_bind]
          have hlen := utf8Step_length b rest cc rest2 hstep
          simp only [List.length_cons] at h1 h2
          rw [ih f2 rest2 (by omega) (by omega)]

theorem utf8Decode_cons_step (b : Nat) (bs : List Nat) :
    utf8Decode (b :: bs) =
      (utf8Step b bs).bind fun p => (utf8Decode p.2).map fun t => p.1 :: t := by
  unfold utf8Decode
  simp only [List.length_cons]
  rw [utf8DecodeLoop_cons]
  rcases hstep : utf8Step b bs with _ | ⟨cc, rest2⟩
  · simp
  · simp only [Option.some_bind]
    have hlen := utf8Step_length b bs cc rest2 hstep
    rw [utf8DecodeLoop_congr bs.length rest2.length rest2 hlen le_rfl]

theorem utf8Decode_encodeChar (c : Char) (bs : List Nat) :
    utf8Decode (utf8EncodeChar c ++ bs) = (utf8Decode bs).map (fun t => c :: t) := by
  have hv := char_valid_nat c
  have hofn : Char.ofNat c.toNat = c := Char.ofNat_toNat c
  unfold utf8EncodeChar
  by_cases h1 : c.toNat < 0x80
  · rw [if_pos h1]
    simp only [List.cons_append, List.nil_append]
    rw [utf8Decode_cons_step]
    unfold utf8Step
    rw [if_pos h1]
    simp only [Option.some_bind, hofn]
  · rw [if_neg h1]
    by_cases h2 : c.toNat < 0x800
    · rw [if_pos h2]
      have e1 : ¬(0xC0 + c.toNat / 64 < 0x80) := by omega
      have e2 : ¬(0xC0 + c.toNat / 64 < 0xC2) := by omega
      have e3 : 0xC0 + c.toNat / 64 < 0xE0 := by omega
      have e4 : contByte (0x80 + c.toNat % 64) = true := by
        simp only [contByte, Bool.and_eq_true, decide_eq_true_eq]
        omega
      have e5 : (0xC0 + c.toNat / 64 - 0xC0) * 64 + (0x80 + c.toNat % 64 - 0x80) = c.toNat := by
        omega
      simp only [List.cons_append, List.nil_append]
      rw [utf8Decode_cons_step]
      unfold utf8Step
      rw [if_neg e1, if_neg e2, if_pos e3]
      simp only [List.head?_cons, Option.some_bind, List.tail_cons, e4, if_true, e5, hofn]
    · rw [if_neg h2]
      by_cases h3 : c.toNat < 0x10000
      · rw [if_pos h3]
        have e1 : ¬(0xE0 + c.toNat / 4096 < 0x80) := by omega
        have e2 : ¬(0xE0 + c.toNat / 4096 < 0xC2) := by omega
        have e3 : ¬(0xE0 + c.toNat / 4096 < 0xE0) := by omega
        have e4 : 0xE0 + c.toNat / 4096 < 0xF0 := by omega
        have e6 : contByte (0x80 + c.toNat % 64) = true := by
          simp only [contByte, Bool.and_eq_true, decide_eq_true_eq]
          omega
        have e5 : (0xE0 + c.toNat / 4096 - 0xE0) * 4096 +
            (0x80 + c.toNat / 64 % 64 - 0x80) * 64 + (0x80 + c.toNat % 64 - 0x80) = c.toNat := by
          omega
        have hguard : (if 0xE0 + c.toNat / 4096 = 0xE0 then
              decide (0xA0 ≤ 0x80 + c.toNat / 64 % 64) && decide (0x80 + c.toNat / 64 % 64 < 0xC0)
            else if 0xE0 + c.toNat / 4096 = 0xED then
              decide (0x80 ≤ 0x80 + c.toNat / 64 % 64) && decide (0x80 + c.toNat / 64 % 64 < 0xA0)
            else contByte (0x80 + c.toNat / 64 % 64)) = true := by
          by_cases hE0 : 0xE0 + c.toNat / 4096 = 0xE0
          · rw [if_pos hE0]
            simp only [Bool.and_eq_true, decide_eq_true_eq]
            omega
          · rw [if_neg hE0]
            by_cases hED : 0xE0 + c.toNat / 4096 = 0xED
            · rw [if_pos hED]
              simp only [Bool.and_eq_true, decide_eq_true_eq]
              omega
            · rw [if_neg hED]
              simp only [contByte, Bool.and_eq_true, decide_eq_true_eq]
              omega
        simp only [List.cons_append, List.nil_append]
        rw [utf8Decode_cons_step]
        unfold utf8Step
        rw [if_neg e1, if_neg e2, if_neg e3, if_pos e4]
        simp only [List.head?_cons, Option.some_bind, List.tail_cons, hguard, e6,
          Bool.and_self, if_true, e5, hofn]
      · rw [if_neg h3]
        have hup : c.toNat < 0x110000 := char_toNat_lt c
        have e1 : ¬(0xF0 + c.toNat / 262144 < 0x80) := by omega
        have e2 : ¬(0xF0 + c.toNat / 262144 < 0xC2) := by omega
        have e3 : ¬(0xF0 + c.toNat / 262144 < 0xE0) := by omega
        have e4 : ¬(0xF0 + c.toNat / 262144 < 0xF0) := by omega
        have e7 : 0xF0 + c.toNat / 262144 < 0xF5 := by omega
        have e6a : contByte (0x80 + c.toNat / 64 % 64) = true := by
          simp only [contByte, Bool.and_eq_true, decide_eq_true_eq]
          omega
        have e6b : contByte (0x80 + c.toNat % 64) = true := by
          simp only [contByte, Bool.and_eq_true, decide_eq_true_eq]
          omega
        have e5 : (0xF0 + c.toNat / 262144 - 0xF0) * 262144 +
            (0x80 + c.toNat / 4096 % 64 - 0x80) * 4096 +
            (0x80 + c.toNat / 64 % 64 - 0x80) * 64 + (0x80 + c.toNat % 64 - 0x80) = c.toNat := by
          omega
        have hguard : (if 0xF0 + c.toNat / 262144 = 0xF0 then
              decide (0x90 ≤ 0x80 + c.toNat / 4096 % 64) &&
                decide (0x80 + c.toNat / 4096 % 64 < 0xC0)
            else if 0xF0 + c.toNat / 262144 = 0xF4 then
              decide (0x80 ≤ 0x80 + c.toNat / 4096 % 64) &&
                decide (0x80 + c.toNat / 4096 % 64 < 0x90)
            else contByte (0x80 + c.toNat / 4096 % 64)) = true := by
          by_cases hF0 : 0xF0 + c.toNat / 262144 = 0xF0
          · rw [if_pos hF0]
            simp only [Bool.and_eq_true, decide_eq_true_eq]
            omega
          · rw [if_neg hF0]
            by_cases hF4 : 0xF0 + c.toNat / 262144 = 0xF4
            · rw [if_pos hF4]
              simp only [Bool.and_eq_true, decide_eq_true_eq]
              omega
            · rw [if_neg hF4]
              simp only [contByte, Bool.and_eq_true, decide_eq_true_eq]
              omega
        simp only [List.cons_append, List.nil_append]
        rw [utf8Decode_cons_step]
        unfold utf8Step
        rw [if_neg e1, if_neg e2, if_neg e3, if_neg e4, if_pos e7]
        simp only [List.head?_cons, Option.some_bind, List.tail_cons, hguard, e6a, e6b,
          Bool.and_self, Bool.true_and, if_true, e5, hofn]


theorem strToBytes_cons (c : Char) (t : List Char) :
    strToBytes (c :: t) = utf8EncodeChar c ++ strToBytes t := by
  simp [strToBytes]

theorem utf8Decode_strToBytes (t : List Char) : utf8Decode (strToBytes t) = some t := by
  induction t with
  | nil => simp [strToBytes, utf8Decode, utf8DecodeLoop_nil]
  | cons c t ih => rw [strToBytes_cons, utf8Decode_encodeChar, ih, Option.map_some']

theorem strToBytes_lt_256 (t : List Char) : ∀ b ∈ strToBytes t, b < 256 := by
  intro b hb
  simp only [strToBytes, List.mem_flatten] at hb
  obtain ⟨s, hs, hbs⟩ := hb
  rw [List.mem_map] at hs
  obtain ⟨c, -, rfl⟩ := hs
  exact utf8EncodeChar_lt_256 c b hbs

theorem strToBytes_ascii (text : List Char) (h : ∀ c ∈ text, c.toNat < 128) :
    strToBytes text = text.map Char.toNat := by
  induction text with
  | nil => rfl
  | cons c t ih =>
    rw [strToBytes_cons, List.map_cons]
    have hc : utf8EncodeChar c = [c.toNat] := by
      unfold utf8EncodeChar
      rw [if_pos (h c (by simp))]
    rw [hc, ih (fun x hx => h x (by simp [hx]))]
    rfl

/-! ### Chunking into bytes -/

theorem chunkLoop_nil (fuel : Nat) : chunkLoop fuel [] = [] := by
  cases fuel
  · rfl
  · rfl

theorem chunkLoop_cons (fuel : Nat) (c : Char) (cs : List Char) :
    chunkLoop (fuel + 1) (c :: cs) = (c :: cs).take 8 :: chunkLoop fuel ((c :: cs).drop 8) :=
  rfl

theorem chunkLoop_congr (f1 : Nat) : ∀ (f2 : Nat) (l : List Char), l.length ≤ f1 →
    l.length ≤ f2 → chunkLoop f1 l = chunkLoop f2 l := by
  induction f1 with
  | zero =>
    intro f2 l h1 h2
    have hnil : l = [] := List.length_eq_zero.1 (by omega)
    subst hnil
    rw [chunkLoop_nil, chunkLoop_nil]
  | succ f1 ih =>
    intro f2 l h1 h2
    rcases l with _ | ⟨c, cs⟩
    · rw [chunkLoop_nil, chunkLoop_nil]
    · rcases f2 with _ | f2
      · simp at h2
      · rw [chunkLoop_cons, chunkLoop_cons]
        simp only [List.length_cons] at h1 h2
        have hd : ((c :: cs).drop 8).length ≤ f1 := by
          simp only [List.length_drop, List.length_cons]
          omega
        have hd2 : ((c :: cs).drop 8).length ≤ f2 := by
          simp only [List.length_drop, List.length_cons]
          omega
        rw [ih f2 _ hd hd2]

theorem chunkLoop_append8 (l rest : List Char) (h : l.length = 8) :
    chunkLoop (l ++ rest).length (l ++ rest) = l :: chunkLoop rest.length rest := by
  rcases l with _ | ⟨a, l'⟩
  · simp at h
  · rw [List.cons_append]
    rw [show (a :: (l' ++ rest)).length = (l' ++ rest).length + 1 from by simp,
      chunkLoop_cons]
    have h8 : (8 : Nat) = ((a :: l').length) := by simpa using h.symm
    have htake : (a :: (l' ++ rest)).take 8 = a :: l' := by
      rw [← List.cons_append, h8]
      exact List.take_left _ _
    have hdrop : (a :: (l' ++ rest)).drop 8 = rest := by
      rw [← List.cons_append, h8]
      exact List.drop_left _ _
    rw [htake, hdrop,
      chunkLoop_congr (l' ++ rest).length rest.length rest (by simp) le_rfl]

theorem chunkLoop_flatten (chunks : List (List Char)) (h : ∀ x ∈ chunks, x.length = 8) :
    chunkLoop chunks.flatten.length chunks.flatten = chunks := by
  induction chunks with
  | nil => rfl
  | cons x xs ih =>
    rw [List.flatten_cons, chunkLoop_append8 x xs.flatten (h x (by simp)),
      ih (fun y hy => h y (by simp [hy]))]

theorem flatten_map_singleton (l : List Char) : (l.map (fun b => [b])).flatten = l := by
  induction l with
  | nil => rfl
  | cons c cs ih => simp [ih]

theorem parseBinList_format08b (bytes : List Nat) :
    parseBinList (bytes.map format08b) = some bytes := by
  induction bytes with
  | nil => rfl
  | cons b bs ih => simp [parseBinList, binToNat?_format08b, ih]

/-- C1: for every text `t`, `convert_text_to_binary t` has length a multiple
of 8, and feeding its individual bits through `handle_flipped_results`
(which merges them and regroups into 8-bit chunks) and then
`convert_binary_to_text` recovers exactly `t`. -/
theorem text_binary_roundtrip (t : List Char) :
    (convert_text_to_binary t).length % 8 = 0 ∧
    convert_binary_to_text
      (handle_flipped_results ((convert_text_to_binary t).map (fun b => [b])) false) =
      some t := by
  have hlen8 : ∀ x ∈ (strToBytes t).map format08b, x.length = 8 := by
    intro x hx
    rw [List.mem_map] at hx
    obtain ⟨b, hb, rfl⟩ := hx
    exact format08b_length b (strToBytes_lt_256 t b hb)
  constructor
  · show (((strToBytes t).map format08b).flatten).length % 8 = 0
    rw [flatten_map_length_eq (strToBytes t) format08b 8
      (fun b hb => format08b_length b (strToBytes_lt_256 t b hb))]
    simp [Nat.mul_mod_right]
  · have hsingle : ((convert_text_to_binary t).map (fun b => [b])).flatten =
        convert_text_to_binary t := flatten_map_singleton _
    simp only [handle_flipped_results, hsingle, Bool.false_eq_true, if_false]
    rw [show convert_text_to_binary t = ((strToBytes t).map format08b).flatten from rfl]
    rw [chunkLoop_flatten _ hlen8]
    unfold convert_binary_to_text
    rw [parseBinList_format08b]
    simp only [Option.some_bind]
    exact utf8Decode_strToBytes t

/-- C3 (amended): both text-to-bit-string serializers emit only `'0'` and
`'1'` characters.  The `ord`-based serializer yields exactly 8 bits per
character when every character's code point is below 256, and the UTF-8
based serializer yields exactly 8 bits per character when every character
is ASCII (code point below 128); in general they yield respectively
`max 8 (bitlength)` bits per character and 8 bits per UTF-8 byte. -/
theorem serialization_bits_and_length (text : List Char) :
    IsBits (convert_text_to_binary_ord text) ∧
    IsBits (convert_text_to_binary text) ∧
    ((∀ c ∈ text, c.toNat < 256) → (convert_text_to_binary_ord text).length = 8 * text.length) ∧
    ((∀ c ∈ text, c.toNat < 128) → (convert_text_to_binary text).length = 8 * text.length) := by
  refine ⟨?_, ?_, ?_, ?_⟩
  · exact flatten_map_bits text _ (fun c _ => format08b_bits c.toNat)
  · exact flatten_map_bits (strToBytes text) _ (fun b _ => format08b_bits b)
  · intro h
    rw [show convert_text_to_binary_ord text =
      (text.map (fun c => format08b c.toNat)).flatten from rfl]
    rw [flatten_map_length_eq text _ 8 (fun c hc => format08b_length c.toNat (h c hc))]
  · intro h
    rw [show convert_text_to_binary text = ((strToBytes text).map format08b).flatten from rfl]
    rw [flatten_map_length_eq (strToBytes text) format08b 8
      (fun b hb => format08b_length b (strToBytes_lt_256 text b hb))]
    rw [strToBytes_ascii text h, List.length_map]

/-- Witness for the amended C3 at the concrete text `"Hi"`. -/
theorem serialization_bits_and_length_witness :
    IsBits (convert_text_to_binary_ord ['H', 'i']) ∧
    IsBits (convert_text_to_binary ['H', 'i']) ∧
    (convert_text_to_binary_ord ['H', 'i']).length = 16 ∧
    (convert_text_to_binary ['H', 'i']).length = 16 := by
  obtain ⟨a, b, c, d⟩ := serialization_bits_and_length ['H', 'i']
  exact ⟨a, b, by simpa using c (by decide), by simpa using d (by decide)⟩

/-- C3 counterexample: for `'Ā'` (code point 256) the `ord`-based serializer
emits 9 bits, not 8; for `'é'` (code point 233, two UTF-8 bytes) the UTF-8
based serializer emits 16 bits, not 8.  So neither serializer emits
`8 × len(text)` bits for arbitrary text. -/
theorem serialization_length_counterexample :
    (convert_text_to_binary_ord ['Ā']).length ≠ 8 * (['Ā'] : List Char).length ∧
    (convert_text_to_binary ['é']).length ≠ 8 * (['é'] : List Char).length := by
  decide

/-- C5: XOR keying is an involution on bit strings: for bit strings `b`, `k`
of equal length, `xor_decode (xor_encode b k) k = b`. -/
theorem xor_roundtrip (b k : List Char) (hb : IsBits b) (hk : IsBits k)
    (hlen : b.length = k.length) : xor_decode (xor_encode b k) k = b := by
  induction b generalizing k with
  | nil => simp [xor_encode, xor_decode]
  | cons x xs ih =>
    rcases k with _ | ⟨y, ys⟩
    · simp at hlen
    · have hx := hb x (by simp)
      have hy := hk y (by simp)
      have hxs : IsBits xs := fun c hc => hb c (by simp [hc])
      have hys : IsBits ys := fun c hc => hk c (by simp [hc])
      have hlen' : xs.length = ys.length := by simpa using hlen
      have hstep : xor_encode (x :: xs) (y :: ys) =
          (if x ≠ y then '1' else '0') :: xor_encode xs ys := rfl
      have hstep2 : ∀ e E, xor_decode (e :: E) (y :: ys) =
          (if e ≠ y then '1' else '0') :: xor_decode E ys := fun e E => rfl
      rw [hstep, hstep2, ih ys hxs hys hlen']
      simp only [List.cons.injEq, and_true]
      rcases hx with rfl | rfl <;> rcases hy with rfl | rfl <;> decide

/-- Witness for C5 at concrete bit strings of length 3. -/
theorem xor_roundtrip_witness :
    IsBits ['0', '1', '1'] ∧ IsBits ['1', '0', '1'] ∧
    xor_decode (xor_encode ['0', '1', '1'] ['1', '0', '1']) ['1', '0', '1'] = ['0', '1', '1'] :=
  ⟨by decide, by decide, xor_roundtrip _ _ (by decide) (by decide) (by decide)⟩

/-- C9: `xor_encode` and `xor_decode` return a string of length
`min (len b) (len k)` (the `zip` truncates to the shorter argument), so a
key shorter than the data silently drops the trailing data bits. -/
theorem xor_length_min (b k : List Char) :
    (xor_encode b k).length = min b.length k.length ∧
    (xor_decode b k).length = min b.length k.length := by
  constructor <;> simp [xor_encode, xor_decode, List.length_zip]

/-! ### BB84 sifting -/

theorem sift_foldl {α β : Type} (g1 : Nat → α) (g2 : Nat → β) (P : Nat → Prop)
    [DecidablePred P] (idxs : List Nat) :
    ∀ acc : List α × List β,
      idxs.foldl (fun acc i => if P i then (acc.1 ++ [g1 i], acc.2 ++ [g2 i]) else acc) acc =
        (acc.1 ++ (idxs.filter fun i => decide (P i)).map g1,
         acc.2 ++ (idxs.filter fun i => decide (P i)).map g2) := by
  induction idxs with
  | nil => intro acc; simp
  | cons j js ih =>
    intro acc
    rw [List.foldl_cons]
    by_cases hj : P j
    · rw [if_pos hj, ih]
      simp [List.filter_cons, hj]
    · rw [if_neg hj, ih]
      simp [List.filter_cons, hj]

theorem run_simulation_eq (bt ab bb : List Char) (br : List Nat) :
    run_simulation bt ab bb br =
      (((List.range bt.length).filter fun i => decide (ab.getD i 'Z' = bb.getD i 'Z')).map
        (fun i => (bt.getD i '0').toNat - 48),
       ((List.range bt.length).filter fun i => decide (ab.getD i 'Z' = bb.getD i 'Z')).map
        (fun i => br.getD i 0)) := by
  unfold run_simulation
  rw [sift_foldl]
  simp

theorem run_bb84_sift_eq (n : Nat) (abits abases bbases : List Nat) (mk : List Char) :
    run_bb84_sift n abits abases bbases mk =
      (((List.range n).filter fun i => decide (abases.getD i 0 = bbases.getD i 0)).map
        (fun i => Nat.digitChar (abits.getD i 0)),
       ((List.range n).filter fun i => decide (abases.getD i 0 = bbases.getD i 0)).map
        (fun i => mk.getD i ' ')) := by
  unfold run_bb84_sift
  rw [sift_foldl]
  simp

/-- C6: each constructor builds exactly one circuit per bit of the binary
text: `create_circuits` (the BB84 version of
quantum_teleportation/quantum_data_teleporter.py) and the fixed-template
constructor of quantum_communication/quantum_data_teleporter.py both
produce `len(binary_text)` circuits, for every input. -/
theorem circuits_per_bit (binaryText aliceBases bobBases : List Char) :
    (create_circuits binaryText aliceBases bobBases).length = binaryText.length ∧
    (create_circuits_qcomm binaryText).length = binaryText.length := by
  constructor
  · simp [create_circuits]
  · simp [create_circuits_qcomm]

/-- C8: BB84 sifting keeps exactly the matching-basis positions: for both
sifting routines (`run_simulation` of quantum_data_teleporter.py and
`run_bb84_protocol` of bb84_utils.py), the two sifted keys have equal
length, that length is the number of indices where the basis strings
match, and Alice's sifted key is exactly her original bits at the kept
indices, in order. -/
theorem sift_properties (bt ab bb : List Char) (br : List Nat)
    (hab : ab.length = bt.length) (hbb : bb.length = bt.length)
    (hbr : br.length = bt.length)
    (n : Nat) (abits abases bbases : List Nat) (mk : List Char)
    (h1 : abits.length = n) (h2 : abases.length = n) (h3 : bbases.length = n)
    (h4 : mk.length = n) :
    ((run_simulation bt ab bb br).1.length = (run_simulation bt ab bb br).2.length ∧
     (run_simulation bt ab bb br).1.length =
       ((List.range bt.length).filter fun i => decide (ab.getD i 'Z' = bb.getD i 'Z')).length ∧
     (run_simulation bt ab bb br).1 =
       ((List.range bt.length).filter fun i => decide (ab.getD i 'Z' = bb.getD i 'Z')).map
         (fun i => (bt.getD i '0').toNat - 48)) ∧
    ((run_bb84_sift n abits abases bbases mk).1.length =
       (run_bb84_sift n abits abases bbases mk).2.length ∧
     (run_bb84_sift n abits abases bbases mk).1.length =
       ((List.range n).filter fun i => decide (abases.getD i 0 = bbases.getD i 0)).length ∧
     (run_bb84_sift n abits abases bbases mk).1 =
       ((List.range n).filter fun i => decide (abases.getD i 0 = bbases.getD i 0)).map
         (fun i => Nat.digitChar (abits.getD i 0))) := by
  refine ⟨⟨?_, ?_, ?_⟩, ⟨?_, ?_, ?_⟩⟩ <;>
    simp [run_simulation_eq, run_bb84_sift_eq]

/-- Witness for C8 at a concrete one-bit run with matching bases. -/
theorem sift_properties_witness :
    (run_simulation ['0'] ['Z'] ['Z'] [1]).1.length =
      (run_simulation ['0'] ['Z'] ['Z'] [1]).2.length ∧
    run_simulation ['0'] ['Z'] ['Z'] [1] = ([0], [1]) ∧
    run_bb84_sift 1 [1] [1] [1] ['1'] = (['1'], ['1']) := by
  refine ⟨(sift_properties ['0'] ['Z'] ['Z'] [1] rfl rfl rfl
    1 [1] [1] [1] ['1'] rfl rfl rfl rfl).1.1, by decide, by decide⟩

/-- C2 counterexample: with binary text `"0"`, matching bases `Z`/`Z` and
Bob's decoded measurement outcome `1`, `run_simulation` returns
`([0], [1])`: a pair of sifted key lists.  Its first component is Alice's
bit list `[0]`, not data recovered from the measurement outcomes (Bob
measured `1`), and its second component is Bob's sifted key `[1]`, not a
boolean flag indicating whether a recovered text equals the original. -/
theorem run_simulation_not_text_pair :
    run_simulation ['0'] ['Z'] ['Z'] [1] = ([0], [1]) ∧ (([0] : List Nat) ≠ [1]) := by
  exact ⟨by decide, by decide⟩

/-- C2 (amended): when `run_protocol` (bb84.py) returns a pair, its second
component is `true` exactly when its first component (the decoded text)
equals the original data.  The active `run_simulation` of
quantum_data_teleporter.py instead returns the sifted key pair
`(alice_key, bob_key)` — Alice's bits and Bob's decoded outcomes at the
matching-basis indices — and no recovered text or match flag. -/
theorem run_protocol_match_flag (m : BrotliModel) (data : List Char)
    (compression : Option (List Char)) (fr : List (List Char)) (r : List Char × Bool)
    (h : run_protocol m data compression fr = some r)
    (bt ab bb : List Char) (br : List Nat) :
    (r.2 = true ↔ r.1 = data) ∧
    run_simulation bt ab bb br =
      (((List.range bt.length).filter fun i => decide (ab.getD i 'Z' = bb.getD i 'Z')).map
        (fun i => (bt.getD i '0').toNat - 48),
       ((List.range bt.length).filter fun i => decide (ab.getD i 'Z' = bb.getD i 'Z')).map
        (fun i => br.getD i 0)) := by
  refine ⟨?_, run_simulation_eq bt ab bb br⟩
  simp only [run_protocol] at h
  rcases hA : convert_binary_to_text (chunkLoop fr.flatten.length fr.flatten) with _ | txt
  · rw [hA] at h
    simp at h
  · rw [hA] at h
    simp only [Option.some_bind] at h
    rcases hB : decompress_data m txt compression with _ | d
    · rw [hB] at h
      simp at h
    · rw [hB] at h
      simp only [Option.map_some'] at h
      obtain rfl := Option.some.inj h
      simp [beq_iff_eq]

/-! ### Base64 round trip and the C4 compression claims -/

theorem charSixBit_sixBitChar (n : Nat) (h : n < 64) :
    charSixBit (sixBitChar n) = some n := by
  interval_cases n <;> decide

theorem isB64Char_sixBitChar (n : Nat) (h : n < 64) : isB64Char (sixBitChar n) = true := by
  unfold isB64Char
  rw [charSixBit_sixBitChar n h]
  rfl

theorem sixBitChar_ne_pad (n : Nat) (h : n < 64) : sixBitChar n ≠ '=' := by
  intro he
  have h1 := charSixBit_sixBitChar n h
  have h2 : charSixBit '=' = none := by decide
  rw [he, h2] at h1
  exact Option.noConfusion h1

theorem b64decodeGroups_cons4 (c1 c2 c3 c4 : Char) (rest : List Char) :
    b64decodeGroups (c1 :: c2 :: c3 :: c4 :: rest) =
      if c3 = '=' ∧ c4 = '=' ∧ rest = [] then
        (charSixBit c1).bind fun n1 => (charSixBit c2).map fun n2 => [n1 * 4 + n2 / 16]
      else if c4 = '=' ∧ rest = [] then
        (charSixBit c1).bind fun n1 => (charSixBit c2).bind fun n2 =>
          (charSixBit c3).map fun n3 => [n1 * 4 + n2 / 16, n2 % 16 * 16 + n3 / 4]
      else
        (charSixBit c1).bind fun n1 => (charSixBit c2).bind fun n2 =>
          (charSixBit c3).bind fun n3 => (charSixBit c4).bind fun n4 =>
            (b64decodeGroups rest).map fun bs =>
              (n1 * 4 + n2 / 16) :: (n2 % 16 * 16 + n3 / 4) :: (n3 % 4 * 64 + n4) :: bs :=
  rfl

theorem b64decodeGroups_encode (bs : List Nat) (h : ∀ b ∈ bs, b < 256) :
    b64decodeGroups (b64encode bs) = some bs := by
  induction bs using b64encode.induct with
  | case1 => rfl
  | case2 b1 =>
    have hb1 : b1 < 256 := h b1 (by simp)
    rw [show b64encode [b1] =
      [sixBitChar (b1 / 4), sixBitChar (b1 % 4 * 16), '=', '='] from rfl]
    rw [b64decodeGroups_cons4, if_pos ⟨rfl, rfl, rfl⟩]
    rw [charSixBit_sixBitChar (b1 / 4) (by omega),
      charSixBit_sixBitChar (b1 % 4 * 16) (by omega)]
    simp only [Option.some_bind, Option.map_some', Option.some.injEq, List.cons.injEq,
      and_true]
    omega
  | case3 b1 b2 =>
    have hb1 : b1 < 256 := h b1 (by simp)
    have hb2 : b2 < 256 := h b2 (by simp)
    rw [show b64encode [b1, b2] = [sixBitChar (b1 / 4), sixBitChar (b1 % 4 * 16 + b2 / 16),
      sixBitChar (b2 % 16 * 4), '='] from rfl]
    rw [b64decodeGroups_cons4,
      if_neg (by rintro ⟨h3, -, -⟩; exact sixBitChar_ne_pad (b2 % 16 * 4) (by omega) h3),
      if_pos ⟨rfl, rfl⟩]
    rw [charSixBit_sixBitChar (b1 / 4) (by omega),
      charSixBit_sixBitChar (b1 % 4 * 16 + b2 / 16) (by omega),
      charSixBit_sixBitChar (b2 % 16 * 4) (by omega)]
    simp only [Option.some_bind, Option.map_some', Option.some.injEq, List.cons.injEq,
      and_true]
    constructor
    · omega
    · omega
  | case4 b1 b2 b3 rest ih =>
    have hb1 : b1 < 256 := h b1 (by simp)
    have hb2 : b2 < 256 := h b2 (by simp)
    have hb3 : b3 < 256 := h b3 (by simp)
    have hrest : ∀ b ∈ rest, b < 256 := fun b hb => h b (by simp [hb])
    rw [show b64encode (b1 :: b2 :: b3 :: rest) =
      sixBitChar (b1 / 4) :: sixBitChar (b1 % 4 * 16 + b2 / 16) ::
      sixBitChar (b2 % 16 * 4 + b3 / 64) :: sixBitChar (b3 % 64) :: b64encode rest from rfl]
    rw [b64decodeGroups_cons4,
      if_neg (by rintro ⟨h3, -, -⟩; exact sixBitChar_ne_pad (b2 % 16 * 4 + b3 / 64) (by omega) h3),
      if_neg (by rintro ⟨h4, -⟩; exact sixBitChar_ne_pad (b3 % 64) (by omega) h4)]
    rw [charSixBit_sixBitChar (b1 / 4) (by omega),
      charSixBit_sixBitChar (b1 % 4 * 16 + b2 / 16) (by omega),
      charSixBit_sixBitChar (b2 % 16 * 4 + b3 / 64) (by omega),
      charSixBit_sixBitChar (b3 % 64) (by omega), ih hrest]
    simp only [Option.some_bind, Option.map_some', Option.some.injEq, List.cons.injEq,
      and_true]
    refine ⟨?_, ?_, ?_⟩
    · omega
    · omega
    · omega

theorem b64encode_filter (bs : List Nat) (h : ∀ b ∈ bs, b < 256) :
    (b64encode bs).filter (fun c => isB64Char c || c = '=') = b64encode bs := by
  rw [List.filter_eq_self]
  intro c hc
  induction bs using b64encode.induct with
  | case1 => simp [b64encode] at hc
  | case2 b1 =>
    have hb1 : b1 < 256 := h b1 (by simp)
    rw [show b64encode [b1] =
      [sixBitChar (b1 / 4), sixBitChar (b1 % 4 * 16), '=', '='] from rfl] at hc
    simp only [List.mem_cons, List.not_mem_nil, or_false] at hc
    rcases hc with rfl | rfl | rfl | rfl
    · simp [isB64Char_sixBitChar (b1 / 4) (by omega)]
    · simp [isB64Char_sixBitChar (b1 % 4 * 16) (by omega)]
    · simp
    · simp
  | case3 b1 b2 =>
    have hb1 : b1 < 256 := h b1 (by simp)
    have hb2 : b2 < 256 := h b2 (by simp)
    rw [show b64encode [b1, b2] = [sixBitChar (b1 / 4), sixBitChar (b1 % 4 * 16 + b2 / 16),
      sixBitChar (b2 % 16 * 4), '='] from rfl] at hc
    simp only [List.mem_cons, List.not_mem_nil, or_false] at hc
    rcases hc with rfl | rfl | rfl | rfl
    · simp [isB64Char_sixBitChar (b1 / 4) (by omega)]
    · simp [isB64Char_sixBitChar (b1 % 4 * 16 + b2 / 16) (by omega)]
    · simp [isB64Char_sixBitChar (b2 % 16 * 4) (by omega)]
    · simp
  | case4 b1 b2 b3 rest ih =>
    have hb1 : b1 < 256 := h b1 (by simp)
    have hb2 : b2 < 256 := h b2 (by simp)
    have hb3 : b3 < 256 := h b3 (by simp)
    have hrest : ∀ b ∈ rest, b < 256 := fun b hb => h b (by simp [hb])
    rw [show b64encode (b1 :: b2 :: b3 :: rest) =
      sixBitChar (b1 / 4) :: sixBitChar (b1 % 4 * 16 + b2 / 16) ::
      sixBitChar (b2 % 16 * 4 + b3 / 64) :: sixBitChar (b3 % 64) :: b64encode rest
      from rfl] at hc
    simp only [List.mem_cons] at hc
    rcases hc with rfl | rfl | rfl | rfl | hc
    · simp [isB64Char_sixBitChar (b1 / 4) (by omega)]
    · simp [isB64Char_sixBitChar (b1 % 4 * 16 + b2 / 16) (by omega)]
    · simp [isB64Char_sixBitChar (b2 % 16 * 4 + b3 / 64) (by omega)]
    · simp [isB64Char_sixBitChar (b3 % 64) (by omega)]
    · exact ih hrest hc

theorem b64decode_b64encode (bs : List Nat) (h : ∀ b ∈ bs, b < 256) :
    b64decode (b64encode bs) = some bs := by
  unfold b64decode
  rw [b64encode_filter bs h]
  exact b64decodeGroups_encode bs h

theorem brotliDemo_sound : brotliDemo.Sound := by
  intro bs h
  constructor
  · rfl
  · intro b hb
    simp only [brotliDemo, List.mem_cons] at hb
    rcases hb with rfl | hb
    · omega
    · exact h b hb

/-- C4 (amended, positive half): for every sound Brotli implementation and
every text longer than 128 characters (the compression branch),
`adaptive_decompression (adaptive_compression t) = t`. -/
theorem adaptive_roundtrip_long (m : BrotliModel) (hm : m.Sound) (t : List Char)
    (hlen : 128 < t.length) :
    adaptive_decompression m (adaptive_compression m t) = some t := by
  unfold adaptive_compression
  rw [if_pos hlen]
  obtain ⟨hround, hbytes⟩ := hm (strToBytes t) (strToBytes_lt_256 t)
  unfold adaptive_decompression
  simp only [b64decode_b64encode _ hbytes, hround]
  exact utf8Decode_strToBytes t

/-- Witness for the amended C4 at a concrete 129-character text. -/
theorem adaptive_roundtrip_long_witness :
    brotliDemo.Sound ∧ 128 < (List.replicate 129 'a').length ∧
    adaptive_decompression brotliDemo
      (adaptive_compression brotliDemo (List.replicate 129 'a')) =
      some (List.replicate 129 'a') :=
  ⟨brotliDemo_sound, by simp,
    adaptive_roundtrip_long brotliDemo brotliDemo_sound _ (by simp)⟩

/-- C4 counterexample: the short branch of `adaptive_compression` passes the
text through unmarked, so a short text that happens to be valid base64 of a
valid Brotli stream is mangled by `adaptive_decompression`.  Concretely,
for the 4-character text `"Ow=="`: base64 decoding yields the single byte
`0x3B`, which is exactly the real Brotli compression of the empty byte
string (`brotli.compress(b"") == b";"`), so decompression returns `""`
instead of `"Ow=="`.  `brotliDemo` is a sound model agreeing with the real
library on these inputs. -/
theorem adaptive_roundtrip_counterexample :
    brotliDemo.Sound ∧
    adaptive_compression brotliDemo ['O', 'w', '=', '='] = ['O', 'w', '=', '='] ∧
    adaptive_decompression brotliDemo ['O', 'w', '=', '='] = some [] ∧
    (([] : List Char) ≠ ['O', 'w', '=', '=']) := by
  refine ⟨brotliDemo_sound, by decide, by decide, by decide⟩

/-- Witness for the amended C2: a complete concrete `run_protocol` run on
the text `"Hi"` with no compression. -/
theorem run_protocol_match_flag_witness :
    run_protocol brotliDemo ['H', 'i'] none
      ((convert_text_to_binary ['H', 'i']).map (fun b => [b])) =
      some (['H', 'i'], true) ∧ ((true = true) ↔ ((['H', 'i'] : List Char) = ['H', 'i'])) := by
  have hrun : run_protocol brotliDemo ['H', 'i'] none
      ((convert_text_to_binary ['H', 'i']).map (fun b => [b])) =
      some (['H', 'i'], true) := by decide
  exact ⟨hrun,
    (run_protocol_match_flag brotliDemo ['H', 'i'] none _ _ hrun [] [] [] []).1⟩

/-- C7: the bit-packing and compression helpers are stateless and
deterministic: each is a pure function of its arguments, so two calls with
equal arguments return equal results; in particular the `logs` flag of
`handle_flipped_results` (which only controls printing) does not affect
the returned value, and `adaptive_compression` depends only on the text
and the (fixed, deterministic) Brotli implementation. -/
theorem helpers_deterministic :
    (∀ t₁ t₂ : List Char, t₁ = t₂ → convert_text_to_binary t₁ = convert_text_to_binary t₂) ∧
    (∀ b₁ b₂ : List Char, b₁ = b₂ → bit_flipper b₁ = bit_flipper b₂) ∧
    (∀ b₁ b₂ k₁ k₂ : List Char, b₁ = b₂ → k₁ = k₂ → xor_encode b₁ k₁ = xor_encode b₂ k₂) ∧
    (∀ e₁ e₂ k₁ k₂ : List Char, e₁ = e₂ → k₁ = k₂ → xor_decode e₁ k₁ = xor_decode e₂ k₂) ∧
    (∀ (fr₁ fr₂ : List (List Char)) (l₁ l₂ : Bool), fr₁ = fr₂ →
      handle_flipped_results fr₁ l₁ = handle_flipped_results fr₂ l₂) ∧
    (∀ (m : BrotliModel) (t₁ t₂ : List Char), t₁ = t₂ →
      adaptive_compression m t₁ = adaptive_compression m t₂) := by
  refine ⟨fun a b h => by rw [h], fun a b h => by rw [h],
    fun a b c d h1 h2 => by rw [h1, h2], fun a b c d h1 h2 => by rw [h1, h2],
    fun f1 f2 l1 l2 h => ?_, fun m a b h => by rw [h]⟩
  subst h
  simp only [handle_flipped_results, ite_self]

/-- Witness for C7 at concrete arguments (including both values of the
`logs` flag). -/
theorem helpers_deterministic_witness :
    convert_text_to_binary ['a'] = convert_text_to_binary ['a'] ∧
    handle_flipped_results [['0'], ['1']] true = handle_flipped_results [['0'], ['1']] false :=
  ⟨helpers_deterministic.1 ['a'] ['a'] rfl,
    helpers_deterministic.2.2.2.2.1 [['0'], ['1']] [['0'], ['1']] true false rfl⟩

/-- C10: `QuantumDataTeleporter.__init__` raises `ValueError` exactly when
`file_path`, `text_to_send` and `image_path` are all falsy (`None` or the
empty string, so empty text is also rejected), and, when an input is
given, raises `ValueError` exactly when the compression argument is
neither `"adaptive"` nor `"brotli"` nor falsy.  The
quantum_communication constructor rejects in the same way on its two
inputs. -/
theorem init_validation (fp ts ip comp : Option (List Char)) :
    (qdt_init fp ts ip comp = Except.error InitError.missingInput ↔
      (pyFalsy fp = true ∧ pyFalsy ts = true ∧ pyFalsy ip = true)) ∧
    (qdt_init fp ts ip comp = Except.error InitError.invalidCompression ↔
      (¬(pyFalsy fp = true ∧ pyFalsy ts = true ∧ pyFalsy ip = true) ∧
        comp ≠ some "adaptive".toList ∧ comp ≠ some "brotli".toList ∧
        pyFalsy comp = false)) ∧
    (qdt_init_qcomm fp ts = Except.error InitError.missingInput ↔
      (pyFalsy fp = true ∧ pyFalsy ts = true)) := by
  refine ⟨?_, ?_, ?_⟩
  · unfold qdt_init
    split_ifs with h1 h2 h3 h4 <;> simp_all
  · unfold qdt_init
    split_ifs with h1 h2 h3 h4 <;> simp_all
  · unfold qdt_init_qcomm
    split_ifs with h1 <;> simp_all

end QT
